import Mathlib

/-!
Verification development for the LLM_WORKFLOW repository.

The repository is a React/TypeScript frontend (with a FastAPI backend that is
not part of the available sources) around an "Attention Head Behavioral
Profiler".  This file gives a shallow embedding of the data model and the
operations referenced by the specification: the API client library surface
(`src/lib/api.ts`), the zustand application store (`useAppStore`), the
attention heatmap colour function (`getColor` in `AttentionModule`), the
recall-curve aggregation (`positionData` in `ContextWindowModule`), the two
display normalisations (`normalizeCoord` in `AttentionHeadProfilerModule` and
`normalizedPoints` in `Embeddings3DVisualization`), and — modelled from the
specification where the backend sources are missing — the feature builder's
row-normalisation gate, the clusterer's assignment step, the profile cache's
singleflight discipline, and the stability score.

Numbers are embedded as rationals; where JavaScript `NaN`/`Infinity`
semantics matter (division by a zero range) an explicit `JSVal` type models
them.  All definitions are executable.
-/

namespace LLMWorkflow

/-! ### Application store (`useAppStore`, src/lib store file)

The zustand store holds four fields; `toggleSidebar` and `toggleMathMode`
negate one boolean each, `setActiveModule` and `setIsLoading` overwrite one
field each. -/

/-- The `ModuleId` union type of the store. -/
inductive ModuleId where
  | architecture | tokenizer | embeddings | attention
  | profiler | context | redteaming | router
  deriving DecidableEq, Repr

/-- The state held by `useAppStore`. -/
structure AppState where
  activeModule : ModuleId
  sidebarCollapsed : Bool
  mathModeEnabled : Bool
  isLoading : Bool
  deriving DecidableEq, Repr

/-- Initial store state as created by `create<AppState>`. -/
def initialAppState : AppState :=
  { activeModule := .architecture
    sidebarCollapsed := false
    mathModeEnabled := false
    isLoading := false }

/-- `setActiveModule: (module) => set({ activeModule: module })`. -/
def setActiveModule (m : ModuleId) (s : AppState) : AppState :=
  { s with activeModule := m }

/-- `toggleSidebar: () => set((state) => ({ sidebarCollapsed: !state.sidebarCollapsed }))`. -/
def toggleSidebar (s : AppState) : AppState :=
  { s with sidebarCollapsed := !s.sidebarCollapsed }

/-- `toggleMathMode: () => set((state) => ({ mathModeEnabled: !state.mathModeEnabled }))`. -/
def toggleMathMode (s : AppState) : AppState :=
  { s with mathModeEnabled := !s.mathModeEnabled }

/-- `setIsLoading: (loading) => set({ isLoading: loading })`. -/
def setIsLoading (b : Bool) (s : AppState) : AppState :=
  { s with isLoading := b }

/-! ### API client library surface (`src/lib/api.ts`)

The `attentionApi` object literal defines exactly one member, `analyze`.
The `AttentionHeadProfilerModule` component invokes five further accessors
on `attentionApi` inside its `useQuery` query functions. -/

/-- Member names defined on the `attentionApi` object in the client library. -/
def attentionApiAccessors : List String := ["analyze"]

/-- Accessor names the `AttentionHeadProfilerModule` invokes on `attentionApi`. -/
def profilerInvokedAccessors : List String :=
  ["getHeadProfiles", "getHeadExamples", "getClusterInfo", "getMetadata",
   "getHeadExplanation"]

/-! ### Attention heatmap colour (`getColor` in `AttentionModule`)

`getColor(weight)` computes `intensity = Math.round(weight * 255)` and
returns `rgb(intensity, Math.round(intensity * 0.6), 255 - intensity)`.
JavaScript `Math.round` rounds half towards positive infinity. -/

/-- JavaScript `Math.round`: `⌊x + 1/2⌋` (half rounds towards +∞). -/
def jsRound (q : ℚ) : ℤ := ⌊q + 1 / 2⌋

/-- The heatmap colour function: the `(r, g, b)` channel triple. -/
def getColor (weight : ℚ) : ℤ × ℤ × ℤ :=
  let intensity := jsRound (weight * 255)
  (intensity, jsRound ((intensity : ℚ) * (6 / 10)), 255 - intensity)

/-! ### Claims about the store -/

/-- **C8.** `toggleMathMode` negates only `mathModeEnabled` and leaves the
other three fields unchanged; `toggleSidebar` negates only
`sidebarCollapsed`; both toggles are involutions. -/
theorem toggleMathMode_toggleSidebar_frame (s : AppState) :
    (toggleMathMode s).mathModeEnabled = !s.mathModeEnabled ∧
    (toggleMathMode s).activeModule = s.activeModule ∧
    (toggleMathMode s).sidebarCollapsed = s.sidebarCollapsed ∧
    (toggleMathMode s).isLoading = s.isLoading ∧
    (toggleSidebar s).sidebarCollapsed = !s.sidebarCollapsed ∧
    (toggleSidebar s).activeModule = s.activeModule ∧
    (toggleSidebar s).mathModeEnabled = s.mathModeEnabled ∧
    (toggleSidebar s).isLoading = s.isLoading ∧
    toggleMathMode (toggleMathMode s) = s ∧
    toggleSidebar (toggleSidebar s) = s := by
  refine ⟨rfl, rfl, rfl, rfl, rfl, rfl, rfl, rfl, ?_, ?_⟩ <;>
    simp [toggleMathMode, toggleSidebar]

/-! ### Claims about the client library surface -/

/-- **C1.** The profiler UI invokes `getHeadProfiles` (and four further
accessors) on `attentionApi`, but the client library defines none of them:
its `attentionApi` object exposes only `analyze`.  Every read-path accessor
the `AttentionHeadProfilerModule` needs is missing from the client library. -/
theorem profiler_accessors_missing_from_client :
    "getHeadProfiles" ∈ profilerInvokedAccessors ∧
    "getHeadProfiles" ∉ attentionApiAccessors ∧
    ∀ a ∈ profilerInvokedAccessors, a ∉ attentionApiAccessors := by
  decide

/-! ### Claims about the heatmap colour function -/

/-- **C10.** For `0 ≤ w ≤ 1` the colour triple has the stated channel
formulas and every channel is an integer in `[0, 255]`. -/
theorem getColor_channels_in_range (w : ℚ) (h0 : 0 ≤ w) (h1 : w ≤ 1) :
    getColor w = (jsRound (w * 255), jsRound ((jsRound (w * 255) : ℚ) * (6 / 10)),
      255 - jsRound (w * 255)) ∧
    0 ≤ (getColor w).1 ∧ (getColor w).1 ≤ 255 ∧
    0 ≤ (getColor w).2.1 ∧ (getColor w).2.1 ≤ 255 ∧
    0 ≤ (getColor w).2.2 ∧ (getColor w).2.2 ≤ 255 := by
  have hr0 : 0 ≤ jsRound (w * 255) := by
    have : (0 : ℚ) ≤ w * 255 + 1 / 2 := by nlinarith
    exact Int.le_floor.mpr (by exact_mod_cast this)
  have hr1 : jsRound (w * 255) ≤ 255 := by
    have h : w * 255 + 1 / 2 < ((256 : ℤ) : ℚ) := by push_cast; nlinarith
    exact Int.le_of_lt_add_one (Int.floor_lt.mpr h)
  have hg0 : 0 ≤ jsRound ((jsRound (w * 255) : ℚ) * (6 / 10)) := by
    have : (0 : ℚ) ≤ (jsRound (w * 255) : ℚ) * (6 / 10) + 1 / 2 := by
      have : (0 : ℚ) ≤ (jsRound (w * 255) : ℚ) := by exact_mod_cast hr0
      nlinarith
    exact Int.le_floor.mpr (by exact_mod_cast this)
  have hg1 : jsRound ((jsRound (w * 255) : ℚ) * (6 / 10)) ≤ 255 := by
    have hc : ((jsRound (w * 255) : ℚ)) ≤ 255 := by exact_mod_cast hr1
    have : (jsRound (w * 255) : ℚ) * (6 / 10) + 1 / 2 < 256 := by nlinarith
    exact Int.le_of_lt_add_one (Int.floor_lt.mpr (by exact_mod_cast this))
  refine ⟨rfl, hr0, hr1, hg0, hg1, ?_, ?_⟩ <;> simp [getColor] <;> omega

/-- Witness for C10 at `w = 1/2`. -/
theorem getColor_channels_in_range_witness :
    getColor (1 / 2) = (jsRound ((1 / 2 : ℚ) * 255),
      jsRound ((jsRound ((1 / 2 : ℚ) * 255) : ℚ) * (6 / 10)),
      255 - jsRound ((1 / 2 : ℚ) * 255)) ∧
    0 ≤ (getColor (1 / 2)).1 ∧ (getColor (1 / 2)).1 ≤ 255 ∧
    0 ≤ (getColor (1 / 2)).2.1 ∧ (getColor (1 / 2)).2.1 ≤ 255 ∧
    0 ≤ (getColor (1 / 2)).2.2 ∧ (getColor (1 / 2)).2.2 ≤ 255 :=
  getColor_channels_in_range (1 / 2) (by norm_num) (by norm_num)

/-! ### Recall-curve aggregation (`ContextWindowModule`)

`positionData` maps each of the three positions to the average of the
`recall` fields of the entries with that position, guarded by
`items.length > 0 ? sum / length : 0`. -/

/-- One entry of the recall-curve dataset returned by the context API. -/
structure RecallEntry where
  position : String
  recallVal : ℚ
  deriving DecidableEq, Repr

/-- The fixed position list `['start', 'middle', 'end']`. -/
def contextPositions : List String := ["start", "middle", "end"]

/-- One aggregated datum `{ position, recall }`. -/
structure PositionDatum where
  position : String
  recallVal : ℚ
  deriving DecidableEq, Repr

/-- The `positionData` computation: filter by position, then
`items.reduce((sum, d) => sum + d.recallVal, 0) / items.length` when the group
is non-empty, else `0`. -/
def positionData (recallData : List RecallEntry) : List PositionDatum :=
  contextPositions.map fun pos =>
    let items := recallData.filter fun d => d.position == pos
    let avgRecall : ℚ :=
      if 0 < items.length then
        items.foldl (fun sum d => sum + d.recallVal) 0 / (items.length : ℚ)
      else 0
    { position := pos, recallVal := avgRecall }

/-- Arithmetic mean of the recall fields of a group of entries. -/
def meanRecall (items : List RecallEntry) : ℚ :=
  (items.map RecallEntry.recallVal).sum / (items.length : ℚ)

theorem foldl_add_recall (items : List RecallEntry) (init : ℚ) :
    items.foldl (fun sum d => sum + d.recallVal) init =
      init + (items.map RecallEntry.recallVal).sum := by
  induction items generalizing init with
  | nil => simp
  | cons d rest ih => simp [ih]; ring

/-- **C9.** For each of the three positions, the displayed recall value is
the arithmetic mean of the `recall` fields of exactly the entries with that
position, and is `0` (without dividing by zero) when the group is empty. -/
theorem positionData_is_mean_per_position (recallData : List RecallEntry) :
    positionData recallData = contextPositions.map fun pos =>
      let items := recallData.filter fun d => d.position == pos
      { position := pos
        recallVal := if items = [] then 0 else meanRecall items } := by
  unfold positionData
  refine List.map_congr_left fun pos _ => ?_
  simp only [meanRecall, foldl_add_recall, zero_add]
  by_cases h : (recallData.filter fun d => d.position == pos) = []
  · simp [h]
  · have hlen : 0 < (recallData.filter fun d => d.position == pos).length :=
      List.length_pos.mpr h
    simp [h, hlen]

/-! ### Embeddings display normalisation (`Embeddings3DVisualization`)

`normalizedPoints` rescales all three axes by the single factor
`maxRange = Math.max(rangeX, rangeY, rangeZ)` where each range is the
axis extent with a `|| 1` guard against a zero extent, mapping every
coordinate into `[-2, 2]`. -/

/-- One 3D point as consumed by `Embeddings3DVisualization`. -/
structure Point3 where
  text : String
  x : ℚ
  y : ℚ
  z : ℚ
  cluster : String
  deriving DecidableEq, Repr

/-- `Math.min(...l)` over a non-empty list (0 for the empty list, which the
component guards against). -/
def qmin : List ℚ → ℚ
  | [] => 0
  | a :: r => r.foldl min a

/-- `Math.max(...l)` over a non-empty list (0 for the empty list). -/
def qmax : List ℚ → ℚ
  | [] => 0
  | a :: r => r.foldl max a

/-- An axis range with the JavaScript `|| 1` guard: `maxv - minv || 1`. -/
def axisRange (minv maxv : ℚ) : ℚ :=
  if maxv - minv = 0 then 1 else maxv - minv

/-- The shared scale factor `maxRange` of `normalizedPoints`. -/
def maxRangeOf (points : List Point3) : ℚ :=
  max (max (axisRange (qmin (points.map Point3.x)) (qmax (points.map Point3.x)))
          (axisRange (qmin (points.map Point3.y)) (qmax (points.map Point3.y))))
      (axisRange (qmin (points.map Point3.z)) (qmax (points.map Point3.z)))

/-- The `normalizedPoints` memo: empty input gives `[]`; otherwise every
coordinate becomes `((c - minC) / maxRange) * 4 - 2`. -/
def normalizedPoints (points : List Point3) : List Point3 :=
  if points = [] then []
  else
    let minX := qmin (points.map Point3.x)
    let minY := qmin (points.map Point3.y)
    let minZ := qmin (points.map Point3.z)
    let maxRange := maxRangeOf points
    points.map fun p =>
      { p with
        x := (p.x - minX) / maxRange * 4 - 2
        y := (p.y - minY) / maxRange * 4 - 2
        z := (p.z - minZ) / maxRange * 4 - 2 }

theorem foldl_min_le_init (r : List ℚ) (b : ℚ) : r.foldl min b ≤ b := by
  induction r generalizing b with
  | nil => exact le_rfl
  | cons c r ih => exact (ih (min b c)).trans (min_le_left b c)

theorem foldl_min_le_mem {a : ℚ} {r : List ℚ} (h : a ∈ r) (b : ℚ) :
    r.foldl min b ≤ a := by
  induction r generalizing b with
  | nil => cases h
  | cons c r ih =>
    rcases List.mem_cons.mp h with rfl | hr
    · exact (foldl_min_le_init r (min b a)).trans (min_le_right b a)
    · exact ih hr (min b c)

theorem init_le_foldl_max (r : List ℚ) (b : ℚ) : b ≤ r.foldl max b := by
  induction r generalizing b with
  | nil => exact le_rfl
  | cons c r ih => exact (le_max_left b c).trans (ih (max b c))

theorem mem_le_foldl_max {a : ℚ} {r : List ℚ} (h : a ∈ r) (b : ℚ) :
    a ≤ r.foldl max b := by
  induction r generalizing b with
  | nil => cases h
  | cons c r ih =>
    rcases List.mem_cons.mp h with rfl | hr
    · exact (le_max_right b a).trans (init_le_foldl_max r (max b a))
    · exact ih hr (max b c)

theorem qmin_le_of_mem {a : ℚ} {l : List ℚ} (h : a ∈ l) : qmin l ≤ a := by
  match l with
  | b :: r =>
    rw [qmin]
    rcases List.mem_cons.mp h with rfl | hr
    · exact foldl_min_le_init r a
    · exact foldl_min_le_mem hr b
  | [] => cases h

theorem le_qmax_of_mem {a : ℚ} {l : List ℚ} (h : a ∈ l) : a ≤ qmax l := by
  match l with
  | b :: r =>
    rw [qmax]
    rcases List.mem_cons.mp h with rfl | hr
    · exact init_le_foldl_max r a
    · exact mem_le_foldl_max hr b
  | [] => cases h

theorem foldl_min_mem (r : List ℚ) (b : ℚ) : r.foldl min b ∈ b :: r := by
  induction r generalizing b with
  | nil => exact List.mem_singleton.mpr rfl
  | cons c r ih =>
    rw [List.foldl_cons]
    have h := ih (min b c)
    rcases List.mem_cons.mp h with h | h
    · rcases min_choice b c with hm | hm <;> simp [h.trans hm]
    · simp [h]

theorem qmin_mem {l : List ℚ} (h : l ≠ []) : qmin l ∈ l := by
  match l with
  | b :: r =>
    rw [qmin]
    exact foldl_min_mem r b
  | [] => exact absurd rfl h

theorem axisRange_pos {m M : ℚ} (h : m ≤ M) : 0 < axisRange m M := by
  unfold axisRange
  split
  · norm_num
  · next hz => exact lt_of_le_of_ne (sub_nonneg.mpr h) (Ne.symm hz)

theorem sub_le_axisRange (m M : ℚ) : M - m ≤ axisRange m M := by
  unfold axisRange
  split
  · next hz => rw [hz]; norm_num
  · exact le_rfl

theorem coord_div_bound {c m M R : ℚ} (hmc : m ≤ c) (hcM : c ≤ M)
    (hMR : M - m ≤ R) (hR : 0 < R) :
    -2 ≤ (c - m) / R * 4 - 2 ∧ (c - m) / R * 4 - 2 ≤ 2 := by
  have h0 : 0 ≤ (c - m) / R := div_nonneg (by linarith) hR.le
  have h1 : (c - m) / R ≤ 1 := (div_le_one hR).mpr (by linarith)
  constructor <;> nlinarith

/-- **C6.** Every coordinate produced by the embeddings display
normalisation lies in `[-2, 2]`, and the scale factor — the maximum of the
three (zero-guarded) axis ranges — is one positive value shared by all three
axes. -/
theorem normalizedPoints_coords_in_range (points : List Point3) (p : Point3)
    (hp : p ∈ normalizedPoints points) :
    0 < maxRangeOf points ∧
    (-2 ≤ p.x ∧ p.x ≤ 2) ∧ (-2 ≤ p.y ∧ p.y ≤ 2) ∧ (-2 ≤ p.z ∧ p.z ≤ 2) := by
  have hne : points ≠ [] := by
    intro h
    rw [h] at hp
    simp [normalizedPoints] at hp
  rw [normalizedPoints, if_neg hne] at hp
  obtain ⟨q, hq, rfl⟩ := List.mem_map.mp hp
  have hx1 : qmin (points.map Point3.x) ≤ q.x :=
    qmin_le_of_mem (List.mem_map_of_mem _ hq)
  have hx2 : q.x ≤ qmax (points.map Point3.x) :=
    le_qmax_of_mem (List.mem_map_of_mem _ hq)
  have hy1 : qmin (points.map Point3.y) ≤ q.y :=
    qmin_le_of_mem (List.mem_map_of_mem _ hq)
  have hy2 : q.y ≤ qmax (points.map Point3.y) :=
    le_qmax_of_mem (List.mem_map_of_mem _ hq)
  have hz1 : qmin (points.map Point3.z) ≤ q.z :=
    qmin_le_of_mem (List.mem_map_of_mem _ hq)
  have hz2 : q.z ≤ qmax (points.map Point3.z) :=
    le_qmax_of_mem (List.mem_map_of_mem _ hq)
  have hRx : axisRange (qmin (points.map Point3.x)) (qmax (points.map Point3.x)) ≤
      maxRangeOf points := (le_max_left _ _).trans (le_max_left _ _)
  have hRy : axisRange (qmin (points.map Point3.y)) (qmax (points.map Point3.y)) ≤
      maxRangeOf points := (le_max_right _ _).trans (le_max_left _ _)
  have hRz : axisRange (qmin (points.map Point3.z)) (qmax (points.map Point3.z)) ≤
      maxRangeOf points := le_max_right _ _
  have hRpos : 0 < maxRangeOf points :=
    lt_of_lt_of_le (axisRange_pos (hx1.trans hx2)) hRx
  have hbx := coord_div_bound hx1 hx2 ((sub_le_axisRange _ _).trans hRx) hRpos
  have hby := coord_div_bound hy1 hy2 ((sub_le_axisRange _ _).trans hRy) hRpos
  have hbz := coord_div_bound hz1 hz2 ((sub_le_axisRange _ _).trans hRz) hRpos
  exact ⟨hRpos, hbx, hby, hbz⟩

/-- Witness for C6 on a concrete two-point input. -/
theorem normalizedPoints_coords_in_range_witness :
    0 < maxRangeOf [⟨"a", 0, 0, 0, "r"⟩, ⟨"b", 1, 2, 3, "r"⟩] ∧
    ((-2 : ℚ) ≤ (Point3.mk "a" (-2) (-2) (-2) "r").x ∧
      (Point3.mk "a" (-2) (-2) (-2) "r").x ≤ 2) ∧
    ((-2 : ℚ) ≤ (Point3.mk "a" (-2) (-2) (-2) "r").y ∧
      (Point3.mk "a" (-2) (-2) (-2) "r").y ≤ 2) ∧
    ((-2 : ℚ) ≤ (Point3.mk "a" (-2) (-2) (-2) "r").z ∧
      (Point3.mk "a" (-2) (-2) (-2) "r").z ≤ 2) :=
  normalizedPoints_coords_in_range [⟨"a", 0, 0, 0, "r"⟩, ⟨"b", 1, 2, 3, "r"⟩]
    (Point3.mk "a" (-2) (-2) (-2) "r") (by
      rw [normalizedPoints, if_neg (by simp)]
      norm_num [maxRangeOf, axisRange, qmin, qmax])

/-! ### JavaScript number semantics for the profiler display path

`AttentionHeadProfilerModule.normalizeCoord` divides by `max - min` with no
guard; when all points coincide this is a `0 / 0` division, which in
JavaScript yields `NaN` (not an exception).  `JSVal` models the JavaScript
number line with `NaN` and the two infinities (signed zero is not modelled;
none of the verified paths distinguish it). -/

/-- A JavaScript number: a finite value, `NaN`, or `±Infinity`. -/
inductive JSVal where
  | num (q : ℚ)
  | nan
  | posInf
  | negInf
  deriving DecidableEq, Repr

/-- JavaScript subtraction. -/
def jsSub : JSVal → JSVal → JSVal
  | .num a, .num b => .num (a - b)
  | .posInf, .num _ => .posInf
  | .negInf, .num _ => .negInf
  | .num _, .posInf => .negInf
  | .num _, .negInf => .posInf
  | .posInf, .negInf => .posInf
  | .negInf, .posInf => .negInf
  | _, _ => .nan

/-- JavaScript multiplication. -/
def jsMul : JSVal → JSVal → JSVal
  | .num a, .num b => .num (a * b)
  | .num a, .posInf =>
      if a = 0 then .nan else if 0 < a then .posInf else .negInf
  | .posInf, .num a =>
      if a = 0 then .nan else if 0 < a then .posInf else .negInf
  | .num a, .negInf =>
      if a = 0 then .nan else if 0 < a then .negInf else .posInf
  | .negInf, .num a =>
      if a = 0 then .nan else if 0 < a then .negInf else .posInf
  | .posInf, .posInf => .posInf
  | .negInf, .negInf => .posInf
  | .posInf, .negInf => .negInf
  | .negInf, .posInf => .negInf
  | _, _ => .nan

/-- JavaScript division: `0 / 0 = NaN`, `a / 0 = ±Infinity` for `a ≠ 0`. -/
def jsDiv : JSVal → JSVal → JSVal
  | .num a, .num b =>
      if b = 0 then
        if a = 0 then .nan else if 0 < a then .posInf else .negInf
      else .num (a / b)
  | .num _, .posInf => .num 0
  | .num _, .negInf => .num 0
  | .posInf, .num a => if 0 ≤ a then .posInf else .negInf
  | .negInf, .num a => if 0 ≤ a then .negInf else .posInf
  | _, _ => .nan

/-- `normalizeCoord` of `AttentionHeadProfilerModule`:
`((value - min) / (max - min)) * 100` under JavaScript arithmetic. -/
def normalizeCoord (value minv maxv : JSVal) : JSVal :=
  jsMul (jsDiv (jsSub value minv) (jsSub maxv minv)) (.num 100)

/-- **C4 counterexample.** On a flat input every coordinate equals its axis
minimum and maximum, and `normalizeCoord` then computes `(0 / 0) * 100`,
which is `NaN` — not a finite coordinate. -/
theorem normalizeCoord_flat_is_nan :
    normalizeCoord (.num 5) (.num 5) (.num 5) = JSVal.nan := by
  norm_num [normalizeCoord, jsSub, jsDiv, jsMul]

/-- **C4 (amended).** On flat input neither display path crashes: the
embeddings view's guarded range computation produces the finite coordinate
`-2` on every axis, while the profiler's unguarded `normalizeCoord` yields
`NaN` (a non-finite value, not an exception) for every flat axis. -/
theorem flat_input_display_behaviour (points : List Point3) (cx cy cz : ℚ)
    (hflat : ∀ p ∈ points, p.x = cx ∧ p.y = cy ∧ p.z = cz) :
    (∀ p ∈ normalizedPoints points, p.x = -2 ∧ p.y = -2 ∧ p.z = -2) ∧
    ∀ v : ℚ, normalizeCoord (.num v) (.num v) (.num v) = JSVal.nan := by
  constructor
  · intro p hp
    have hne : points ≠ [] := by
      intro h
      rw [h] at hp
      simp [normalizedPoints] at hp
    rw [normalizedPoints, if_neg hne] at hp
    obtain ⟨q, hq, rfl⟩ := List.mem_map.mp hp
    obtain ⟨hqx, hqy, hqz⟩ := hflat q hq
    have hminx : qmin (points.map Point3.x) = cx := by
      have hm := qmin_mem (l := points.map Point3.x) (by simpa using hne)
      obtain ⟨r, hr, hrx⟩ := List.mem_map.mp hm
      rw [← hrx, (hflat r hr).1]
    have hminy : qmin (points.map Point3.y) = cy := by
      have hm := qmin_mem (l := points.map Point3.y) (by simpa using hne)
      obtain ⟨r, hr, hry⟩ := List.mem_map.mp hm
      rw [← hry, (hflat r hr).2.1]
    have hminz : qmin (points.map Point3.z) = cz := by
      have hm := qmin_mem (l := points.map Point3.z) (by simpa using hne)
      obtain ⟨r, hr, hrz⟩ := List.mem_map.mp hm
      rw [← hrz, (hflat r hr).2.2]
    refine ⟨?_, ?_, ?_⟩ <;>
      simp [hminx, hminy, hminz, hqx, hqy, hqz]
  · intro v
    simp [normalizeCoord, jsSub, jsDiv, jsMul, sub_self]

/-- Witness for the amended C4 on a concrete flat one-point input. -/
theorem flat_input_display_behaviour_witness :
    (∀ p ∈ normalizedPoints [⟨"a", 3, 3, 3, "u"⟩], p.x = -2 ∧ p.y = -2 ∧ p.z = -2) ∧
    ∀ v : ℚ, normalizeCoord (.num v) (.num v) (.num v) = JSVal.nan :=
  flat_input_display_behaviour [⟨"a", 3, 3, 3, "u"⟩] 3 3 3 (by
    intro p hp
    simp at hp
    simp [hp])

/-! ### Clusterer assignment and the profiler's colour table

The clusterer itself (backend, §4.3 of the spec) is not under `src/`; its
assignment step is modelled from the spec: k-means assigns each head to the
nearest of `k` centroids, so cluster ids lie in `[0, k)` with `k = 5`.  The
colour table and the legend counting are embedded from
`AttentionHeadProfilerModule`. -/

/-- A behavioral feature vector of one head. -/
abbrev FeatureVec := List ℚ

/-- Squared Euclidean distance between two feature vectors. -/
def dist2 (u v : FeatureVec) : ℚ :=
  ((u.zip v).map fun p => (p.1 - p.2) ^ 2).sum

def argminAux : List ℚ → ℕ → ℕ → ℚ → ℕ
  | [], _, bi, _ => bi
  | a :: r, i, bi, bv =>
      if a < bv then argminAux r (i + 1) i a else argminAux r (i + 1) bi bv

/-- Index of the first minimum of a list (`0` for the empty list). -/
def argminIdx : List ℚ → ℕ
  | [] => 0
  | a :: r => argminAux r 1 0 a

/-- Modelled from the spec: the Clusterer's k-means assignment step (§4.3,
backend source missing) — each head goes to the centroid of least squared
distance, giving a cluster id in `[0, cents.length)`. -/
def assignCluster (cents : List FeatureVec) (x : FeatureVec) : ℕ :=
  argminIdx (cents.map (dist2 x))

/-- Identity and features of one attention head before clustering. -/
structure HeadFeatures where
  layer : ℕ
  head : ℕ
  features : FeatureVec
  deriving DecidableEq, Repr

/-- One projected profiler point with its cluster id. -/
structure HeadPoint where
  layer : ℕ
  head : ℕ
  cluster : ℕ
  deriving DecidableEq, Repr

/-- Modelled from the spec: the snapshot's point list — one point per head,
carrying the k-means cluster assignment. -/
def buildPoints (cents : List FeatureVec) (heads : List HeadFeatures) :
    List HeadPoint :=
  heads.map fun h => ⟨h.layer, h.head, assignCluster cents h.features⟩

/-- The fixed five-entry colour table of `AttentionHeadProfilerModule`. -/
def CLUSTER_COLORS : List String :=
  ["#3b82f6", "#10b981", "#f59e0b", "#ef4444", "#8b5cf6"]

/-- The legend's cluster id list `[0, 1, 2, 3, 4]`. -/
def clusterIds : List ℕ := [0, 1, 2, 3, 4]

/-- The legend's per-cluster member counts:
`points.filter(p => p.cluster === clusterId).length` for each id. -/
def legendCounts (points : List HeadPoint) : List ℕ :=
  clusterIds.map fun c => (points.filter fun p => p.cluster == c).length

theorem argminAux_lt (l : List ℚ) :
    ∀ (i bi : ℕ) (bv : ℚ), bi < i → argminAux l i bi bv < i + l.length := by
  induction l with
  | nil => intro i bi bv h; simpa using h.trans_le (Nat.le_refl i)
  | cons a r ih =>
    intro i bi bv h
    rw [argminAux]
    simp only [List.length_cons]
    split
    · have := ih (i + 1) i a (Nat.lt_succ_self i)
      omega
    · have := ih (i + 1) bi bv (h.trans (Nat.lt_succ_self i))
      omega

theorem argminIdx_lt {l : List ℚ} (h : l ≠ []) : argminIdx l < l.length := by
  match l with
  | a :: r =>
    rw [argminIdx]
    simpa [Nat.add_comm] using argminAux_lt r 1 0 a Nat.one_pos
  | [] => exact absurd rfl h

theorem assignCluster_lt {cents : List FeatureVec} (h : cents ≠ [])
    (x : FeatureVec) : assignCluster cents x < cents.length := by
  have := argminIdx_lt (l := cents.map (dist2 x)) (by simpa using h)
  simpa using this

theorem sum_map_add {α : Type} (l : List α) (f g : α → ℕ) :
    (l.map fun a => f a + g a).sum = (l.map f).sum + (l.map g).sum := by
  induction l with
  | nil => rfl
  | cons a r ih => simp [ih]; omega

theorem sum_indicator_range (n k : ℕ) (h : k < n) :
    ((List.range n).map fun c => if k = c then 1 else 0).sum = 1 := by
  induction n with
  | zero => cases h
  | succ n ih =>
    rw [List.range_succ, List.map_append, List.sum_append]
    rcases Nat.lt_succ_iff_lt_or_eq.mp h with h' | h'
    · have hk : k ≠ n := Nat.ne_of_lt h'
      simp [ih h', hk]
    · subst h'
      have hz : ((List.range k).map fun c => if k = c then 1 else 0).sum = 0 := by
        apply List.sum_eq_zero
        intro x hx
        obtain ⟨c, hc, rfl⟩ := List.mem_map.mp hx
        have : k ≠ c := Nat.ne_of_gt (List.mem_range.mp hc)
        simp [this]
      simp [hz]

theorem counts_partition (n : ℕ) (points : List HeadPoint)
    (h : ∀ p ∈ points, p.cluster < n) :
    ((List.range n).map fun c => (points.filter fun p => p.cluster == c).length).sum
      = points.length := by
  induction points with
  | nil => simp
  | cons p ps ih =>
    have hp : p.cluster < n := h p (List.mem_cons_self p ps)
    have hps : ∀ q ∈ ps, q.cluster < n := fun q hq => h q (List.mem_cons_of_mem p hq)
    have hstep : ∀ c : ℕ,
        ((p :: ps).filter fun q => q.cluster == c).length =
          (if p.cluster = c then 1 else 0) +
            (ps.filter fun q => q.cluster == c).length := by
      intro c
      by_cases hc : p.cluster = c <;> simp [List.filter_cons, hc, Nat.add_comm]
    calc ((List.range n).map fun c =>
            ((p :: ps).filter fun q => q.cluster == c).length).sum
        = ((List.range n).map fun c =>
            (if p.cluster = c then 1 else 0) +
              (ps.filter fun q => q.cluster == c).length).sum := by
          exact congrArg List.sum (List.map_congr_left fun c _ => hstep c)
      _ = ((List.range n).map fun c => if p.cluster = c then 1 else 0).sum +
            ((List.range n).map fun c =>
              (ps.filter fun q => q.cluster == c).length).sum :=
          sum_map_add _ _ _
      _ = 1 + ps.length := by rw [sum_indicator_range n p.cluster hp, ih hps]
      _ = (p :: ps).length := by simp [Nat.add_comm]

/-- **C5.** With the spec-fixed `k = 5` centroids, every snapshot point's
cluster id lies in `[0, 5)`, so indexing the five-entry `CLUSTER_COLORS`
table with any point's cluster id is in bounds, and the legend's per-cluster
member counts over ids `0..4` sum to the total point count. -/
theorem cluster_ids_bound_and_counts_partition (cents : List FeatureVec)
    (hk : cents.length = 5) (heads : List HeadFeatures) :
    (∀ p ∈ buildPoints cents heads, p.cluster < CLUSTER_COLORS.length) ∧
    (legendCounts (buildPoints cents heads)).sum =
      (buildPoints cents heads).length := by
  have hne : cents ≠ [] := by
    intro h0
    rw [h0] at hk
    cases hk
  have hcl : ∀ p ∈ buildPoints cents heads, p.cluster < 5 := by
    intro p hp
    obtain ⟨h, _, rfl⟩ := List.mem_map.mp hp
    have := assignCluster_lt hne h.features
    rwa [hk] at this
  refine ⟨by simpa [CLUSTER_COLORS] using hcl, ?_⟩
  have hids : clusterIds = List.range 5 := by decide
  rw [legendCounts, hids]
  exact counts_partition 5 _ hcl

/-- Witness for C5 with five concrete centroids and two heads. -/
theorem cluster_ids_bound_and_counts_partition_witness :
    (∀ p ∈ buildPoints [[0], [1], [2], [3], [4]] [⟨0, 0, [0]⟩, ⟨0, 1, [3]⟩],
        p.cluster < CLUSTER_COLORS.length) ∧
    (legendCounts (buildPoints [[0], [1], [2], [3], [4]]
        [⟨0, 0, [0]⟩, ⟨0, 1, [3]⟩])).sum =
      (buildPoints [[0], [1], [2], [3], [4]] [⟨0, 0, [0]⟩, ⟨0, 1, [3]⟩]).length :=
  cluster_ids_bound_and_counts_partition [[0], [1], [2], [3], [4]] rfl
    [⟨0, 0, [0]⟩, ⟨0, 1, [3]⟩]

/-! ### Feature Builder row-normalisation gate

The Feature Builder (§4.1 of the spec) is implemented in the backend, which
is not under `src/`; it is modelled from the spec here.  Its validation gate
requires each row of every consumed attention matrix to sum to 1 within the
`1e-3` tolerance and fails fast otherwise. -/

/-- One attention matrix: one sentence, one head. -/
abbrev AttentionMatrix := List (List ℚ)

/-- One row is accepted when its sum is 1 within the `1e-3` tolerance. -/
def rowNormOk (row : List ℚ) : Bool :=
  decide (|row.sum - 1| ≤ (1 : ℚ) / 1000)

/-- Weighted positional distance of row `i`: `Σ_j |i - j| * w_ij`. -/
def rowPosDistance (i : ℕ) (row : List ℚ) : ℚ :=
  (row.enum.map fun jw => |(i : ℚ) - (jw.1 : ℚ)| * jw.2).sum

/-- Mean weighted positional distance over the rows of a matrix. -/
def matrixPosDistance (m : AttentionMatrix) : ℚ :=
  if m.length = 0 then 0
  else (m.enum.map fun ir => rowPosDistance ir.1 ir.2).sum / (m.length : ℚ)

/-- Fraction of a row's mass on the first and last token. -/
def rowBoundaryMass (row : List ℚ) : ℚ :=
  row.headD 0 + (row.getLast?.getD 0)

/-- Mean boundary mass over the rows of a matrix. -/
def matrixBoundaryMass (m : AttentionMatrix) : ℚ :=
  if m.length = 0 then 0 else (m.map rowBoundaryMass).sum / (m.length : ℚ)

/-- The per-observation statistics in the rational fragment of §4.1. -/
def sentenceFeature (m : AttentionMatrix) : FeatureVec :=
  [matrixPosDistance m, matrixBoundaryMass m]

/-- Modelled from the spec: `buildFeatures` of the Feature Builder (§4.1,
backend source missing).  It validates every consumed observation — each row
must sum to 1 within `1e-3` — and fails fast with an error on any violation
instead of producing a feature vector; on valid input it produces the
per-observation statistics (the entropy statistic needs a logarithm and lies
outside the rational fragment, so it is not part of the modelled vector). -/
def buildFeatures (observations : List AttentionMatrix) :
    Except String (List FeatureVec) :=
  match observations.find? (fun m => !(m.all rowNormOk)) with
  | some _ => .error "attention matrix row does not sum to 1 within 1e-3"
  | none => .ok (observations.map sentenceFeature)

/-- **C3.** `buildFeatures` produces feature vectors exactly when each row
of every consumed attention matrix sums to 1 within tolerance `1e-3`; on any
matrix with a violating row it fails fast with an error instead of silently
producing a feature vector. -/
theorem buildFeatures_fails_fast_on_nonnormalized
    (observations : List AttentionMatrix) :
    (∃ fs, buildFeatures observations = Except.ok fs) ↔
      ∀ m ∈ observations, ∀ row ∈ m, |row.sum - 1| ≤ (1 : ℚ) / 1000 := by
  rcases hfind : observations.find? (fun m => !(m.all rowNormOk)) with _ | m
  · simp only [buildFeatures, hfind]
    constructor
    · intro _ m hm row hrow
      have hall := List.find?_eq_none.mp hfind m hm
      have : m.all rowNormOk = true := by
        by_contra hgap
        exact hall (by simp [hgap])
      have := List.all_eq_true.mp this row hrow
      simpa [rowNormOk] using this
    · intro _
      exact ⟨observations.map sentenceFeature, rfl⟩
  · simp only [buildFeatures, hfind]
    constructor
    · intro hcontra
      obtain ⟨fs, hfs⟩ := hcontra
      cases hfs
    · intro hok
      have hmem := List.mem_of_find?_eq_some hfind
      have hpred := List.find?_some hfind
      have : m.all rowNormOk = true :=
        List.all_eq_true.mpr fun row hrow => by
          simpa [rowNormOk] using hok m hmem row hrow
      rw [this] at hpred
      cases hpred

/-! ### Profile cache singleflight discipline

The Profile Cache (§4.5 of the spec) is implemented in the backend, which is
not under `src/`; it is modelled from the spec as a transition system.  A
cache state tracks the published snapshots, the per-key in-flight flag, and
a per-key pipeline execution counter (the spec's test counter).  The only
event that runs the pipeline is `start`, enabled solely for an uncomputed,
not-in-flight key; concurrent requests for a key whose computation is in
flight take no `start` step (they wait or are coalesced), and a `publish`
step makes the snapshot available to every waiter. -/

/-- The profile cache state. -/
structure CacheState (K V : Type) where
  store : K → Option V
  inFlight : K → Bool
  execs : K → ℕ

/-- The empty cache: nothing computed, nothing in flight, zero executions. -/
def initialCache (K V : Type) : CacheState K V :=
  ⟨fun _ => none, fun _ => false, fun _ => 0⟩

/-- Modelled from the spec: the `getOrCompute` singleflight discipline of
§4.5 (backend source missing).  `start` begins the single computation for an
uncomputed, not-in-flight key and bumps that key's execution counter;
`publish` stores the computed snapshot and clears the in-flight flag. -/
inductive CacheStep {K V : Type} [DecidableEq K] (compute : K → V) (k : K) :
    CacheState K V → CacheState K V → Prop
  | start (s : CacheState K V) (hstore : s.store k = none)
      (hflight : s.inFlight k = false) :
      CacheStep compute k s
        ⟨s.store, Function.update s.inFlight k true,
          Function.update s.execs k (s.execs k + 1)⟩
  | publish (s : CacheState K V) (hflight : s.inFlight k = true) :
      CacheStep compute k s
        ⟨Function.update s.store k (some (compute k)),
          Function.update s.inFlight k false, s.execs⟩

/-- Cache states reachable from the empty cache by steps on arbitrary keys. -/
def CacheReachable {K V : Type} [DecidableEq K] (compute : K → V)
    (s : CacheState K V) : Prop :=
  Relation.ReflTransGen (fun s1 s2 => ∃ k, CacheStep compute k s1 s2)
    (initialCache K V) s

/-- The cache invariant: the execution counter of a key counts exactly the
one in-flight or published computation, and a key is never simultaneously
in flight and published. -/
def cacheInv {K V : Type} (s : CacheState K V) : Prop :=
  ∀ k, (s.execs k = (bif s.inFlight k then 1 else 0) +
          (if (s.store k).isSome then 1 else 0)) ∧
    ¬(s.inFlight k = true ∧ (s.store k).isSome = true)

theorem cacheInv_initial (K V : Type) : cacheInv (initialCache K V) := by
  intro k
  simp [initialCache]

theorem cacheInv_step {K V : Type} [DecidableEq K] {compute : K → V} {k : K}
    {s s' : CacheState K V} (hinv : cacheInv s) (hstep : CacheStep compute k s s') :
    cacheInv s' := by
  cases hstep with
  | start hstore hflight =>
    intro k'
    obtain ⟨heq, hnot⟩ := hinv k'
    by_cases hk : k' = k
    · subst hk
      rw [hstore, hflight] at heq
      simp only [Option.isSome_none, cond_false, Bool.false_eq_true, if_false] at heq
      constructor
      · simp [Function.update, heq, hstore]
      · simp [hstore]
    · constructor
      · simpa [Function.update, hk] using heq
      · simpa [Function.update, hk] using hnot
  | publish hflight =>
    intro k'
    obtain ⟨heq, hnot⟩ := hinv k'
    by_cases hk : k' = k
    · subst hk
      have hnone : (s.store k').isSome = false := by
        rcases hs : (s.store k').isSome with _ | _
        · rfl
        · exact absurd ⟨hflight, hs⟩ hnot
      rw [hflight, hnone] at heq
      simp only [cond_true, Bool.false_eq_true, if_false] at heq
      constructor
      · simp [Function.update, heq]
      · simp [Function.update]
    · constructor
      · simpa [Function.update, hk] using heq
      · simpa [Function.update, hk] using hnot

theorem cacheInv_reachable {K V : Type} [DecidableEq K] {compute : K → V}
    {s : CacheState K V} (h : CacheReachable compute s) : cacheInv s := by
  induction h with
  | refl => exact cacheInv_initial K V
  | tail _ hstep ih =>
    obtain ⟨k, hstep⟩ := hstep
    exact cacheInv_step ih hstep

/-- **C2.** In every reachable cache state, each key's pipeline has executed
at most once — and exactly once whenever its snapshot has been published (so
arbitrarily many concurrent requests for one key coalesce into one
execution); moreover a step on one key neither changes nor disables anything
at a different key, so requests for different keys never block each other. -/
theorem cache_singleflight (K V : Type) [DecidableEq K] (compute : K → V) :
    (∀ s : CacheState K V, CacheReachable compute s →
      ∀ k, s.execs k ≤ 1 ∧ ((s.store k).isSome → s.execs k = 1)) ∧
    (∀ (s s' : CacheState K V) (k k' : K), CacheStep compute k s s' → k' ≠ k →
      s'.store k' = s.store k' ∧ s'.inFlight k' = s.inFlight k' ∧
        s'.execs k' = s.execs k') := by
  constructor
  · intro s hreach k
    obtain ⟨heq, hnot⟩ := cacheInv_reachable hreach k
    constructor
    · rw [heq]
      rcases hf : s.inFlight k with _ | _
      · rcases hs : (s.store k).isSome with _ | _
        · simp
        · simp
      · rcases hs : (s.store k).isSome with _ | _
        · simp
        · exact absurd ⟨hf, hs⟩ hnot
    · intro hsome
      have hf : s.inFlight k = false := by
        by_contra hgap
        exact hnot ⟨by simpa using hgap, by simpa using hsome⟩
      rw [heq, hf, hsome]
      rfl
  · intro s s' k k' hstep hk
    cases hstep with
    | start hstore hflight => exact ⟨rfl, by simp [Function.update, hk],
        by simp [Function.update, hk]⟩
    | publish hflight => exact ⟨by simp [Function.update, hk],
        by simp [Function.update, hk], rfl⟩

/-- The cache state after `start "a"` from the empty cache. -/
def demoCacheMid : CacheState String ℕ :=
  ⟨fun _ => none, Function.update (fun _ => false) "a" true,
    Function.update (fun _ => 0) "a" 1⟩

/-- The cache state after `start "a"` then `publish "a"`. -/
def demoCacheEnd : CacheState String ℕ :=
  ⟨Function.update (fun _ => none) "a" (some 0),
    Function.update (Function.update (fun _ => false) "a" true) "a" false,
    Function.update (fun _ => 0) "a" 1⟩

/-- Witness for C2 on a concrete two-step run for key `"a"`. -/
theorem cache_singleflight_witness :
    demoCacheEnd.execs "a" ≤ 1 ∧
      ((demoCacheEnd.store "a").isSome → demoCacheEnd.execs "a" = 1) := by
  have h1 : CacheStep (fun _ : String => (0 : ℕ)) "a" (initialCache String ℕ)
      demoCacheMid :=
    CacheStep.start (initialCache String ℕ) rfl rfl
  have h2 : CacheStep (fun _ : String => (0 : ℕ)) "a" demoCacheMid demoCacheEnd :=
    CacheStep.publish demoCacheMid (by simp [demoCacheMid])
  have hre : CacheReachable (fun _ : String => (0 : ℕ)) demoCacheEnd :=
    Relation.ReflTransGen.tail
      (Relation.ReflTransGen.tail Relation.ReflTransGen.refl ⟨"a", h1⟩) ⟨"a", h2⟩
  exact (cache_singleflight String ℕ (fun _ => 0)).1 demoCacheEnd hre "a"

/-! ### Stability score

The stability metric (§4.3 of the spec) is computed in the backend, which is
not under `src/`; it is modelled from the spec: clustering is repeated over
several seeds and the average pairwise adjusted agreement (adjusted Rand)
index between the runs' assignments is reported.  The index is embedded in
its pair-counting form over the unordered head pairs. -/

/-- The unordered head pairs `(i, j)` with `i < j` over `n` heads. -/
def pairFinset (n : ℕ) : Finset (Fin n × Fin n) :=
  Finset.univ.filter fun p => p.1 < p.2

/-- The pairs an assignment places in one cluster. -/
def togetherPairs (n : ℕ) (f : Fin n → ℕ) : Finset (Fin n × Fin n) :=
  (pairFinset n).filter fun p => f p.1 = f p.2

/-- The pairs two assignments both place in one cluster. -/
def bothPairs (n : ℕ) (f g : Fin n → ℕ) : Finset (Fin n × Fin n) :=
  (pairFinset n).filter fun p => f p.1 = f p.2 ∧ g p.1 = g p.2

/-- Modelled from the spec: the adjusted agreement index between two cluster
assignments (§4.3, backend source missing), in pair-counting form:
`(A - PQ/T) / ((P+Q)/2 - PQ/T)` with `T` the pair count, `P`, `Q` the pairs
each assignment keeps together and `A` the pairs both keep together; a zero
denominator (two identical trivial partitions) scores `1`. -/
def ari (n : ℕ) (f g : Fin n → ℕ) : ℚ :=
  let t : ℚ := ((pairFinset n).card : ℚ)
  let p : ℚ := ((togetherPairs n f).card : ℚ)
  let q : ℚ := ((togetherPairs n g).card : ℚ)
  let a : ℚ := ((bothPairs n f g).card : ℚ)
  if (p + q) / 2 - p * q / t = 0 then 1
  else (a - p * q / t) / ((p + q) / 2 - p * q / t)

/-- All unordered pairs of elements of a list. -/
def pairsOf {α : Type} : List α → List (α × α)
  | [] => []
  | x :: r => (r.map fun y => (x, y)) ++ pairsOf r

/-- Modelled from the spec: the stability score (§4.3) — the average
pairwise adjusted agreement index over the clustering runs (with fewer than
two runs the score is `1`: trivially reproducible). -/
def stabilityScore (n : ℕ) (runs : List (Fin n → ℕ)) : ℚ :=
  let ps := pairsOf runs
  if ps = [] then 1
  else (ps.map fun pr => ari n pr.1 pr.2).sum / (ps.length : ℚ)

/-- Modelled from the spec: the runs entering the stability computation —
each seed's centroid list clusters the same head features through the
assignment step. -/
def pipelineRuns (n : ℕ) (centsList : List (List FeatureVec))
    (feat : Fin n → FeatureVec) : List (Fin n → ℕ) :=
  centsList.map fun cents => fun i => assignCluster cents (feat i)

theorem bothPairs_subset_left (n : ℕ) (f g : Fin n → ℕ) :
    bothPairs n f g ⊆ togetherPairs n f := by
  intro p hp
  simp only [bothPairs, togetherPairs, Finset.mem_filter] at *
  tauto

theorem bothPairs_subset_right (n : ℕ) (f g : Fin n → ℕ) :
    bothPairs n f g ⊆ togetherPairs n g := by
  intro p hp
  simp only [bothPairs, togetherPairs, Finset.mem_filter] at *
  tauto

theorem togetherPairs_subset (n : ℕ) (f : Fin n → ℕ) :
    togetherPairs n f ⊆ pairFinset n :=
  Finset.filter_subset _ _

theorem togetherPairs_inter (n : ℕ) (f g : Fin n → ℕ) :
    togetherPairs n f ∩ togetherPairs n g = bothPairs n f g := by
  ext p
  simp only [togetherPairs, bothPairs, Finset.mem_inter, Finset.mem_filter]
  tauto

theorem together_card_bound (n : ℕ) (f g : Fin n → ℕ) :
    (togetherPairs n f).card + (togetherPairs n g).card ≤
      (pairFinset n).card + (bothPairs n f g).card := by
  have hunion : (togetherPairs n f ∪ togetherPairs n g).card ≤ (pairFinset n).card :=
    Finset.card_le_card (Finset.union_subset (togetherPairs_subset n f)
      (togetherPairs_subset n g))
  have h := Finset.card_union_add_card_inter (togetherPairs n f) (togetherPairs n g)
  rw [togetherPairs_inter] at h
  omega

theorem ariVal_bounds (t p q a : ℚ) (ht0 : 0 ≤ t) (hp0 : 0 ≤ p) (hq0 : 0 ≤ q)
    (ha0 : 0 ≤ a) (hap : a ≤ p) (haq : a ≤ q) (hpt : p ≤ t) (hqt : q ≤ t)
    (hpq : p + q ≤ t + a) :
    -1 ≤ (if (p + q) / 2 - p * q / t = 0 then 1
          else (a - p * q / t) / ((p + q) / 2 - p * q / t)) ∧
      (if (p + q) / 2 - p * q / t = 0 then 1
       else (a - p * q / t) / ((p + q) / 2 - p * q / t)) ≤ 1 := by
  by_cases hd : (p + q) / 2 - p * q / t = 0
  · rw [if_pos hd]
    norm_num
  · rw [if_neg hd]
    have ht : 0 < t := by
      rcases eq_or_lt_of_le ht0 with h0 | h0
      · exfalso
        apply hd
        have hp : p = 0 := le_antisymm (h0 ▸ hpt) hp0
        have hq : q = 0 := le_antisymm (h0 ▸ hqt) hq0
        rw [hp, hq]
        norm_num
      · exact h0
    have hd0 : 0 ≤ (p + q) / 2 - p * q / t := by
      rw [sub_nonneg, div_le_div_iff₀ ht (by norm_num : (0 : ℚ) < 2)]
      nlinarith [mul_le_mul_of_nonneg_left hqt hp0, mul_le_mul_of_nonneg_left hpt hq0]
    have hdpos : 0 < (p + q) / 2 - p * q / t := lt_of_le_of_ne hd0 (Ne.symm hd)
    have he : p * q / t * t = p * q := div_mul_cancel₀ _ ht.ne'
    have hkey : 4 * (p * q) ≤ 2 * t * a + t * (p + q) := by
      rcases le_or_lt (p + q) t with hc | hc
      · nlinarith [sq_nonneg (p - q), mul_nonneg (add_nonneg hp0 hq0) (sub_nonneg.mpr hc),
          mul_nonneg (mul_nonneg (by norm_num : (0 : ℚ) ≤ 2) ht0) ha0]
      · have ha1 : p + q - t ≤ a := by linarith
        nlinarith [sq_nonneg (p - q),
          mul_nonneg (by linarith : (0 : ℚ) ≤ 2 * t - p - q) (by linarith : (0 : ℚ) ≤ p + q - t),
          mul_le_mul_of_nonneg_left ha1 (by linarith : (0 : ℚ) ≤ 2 * t)]
    constructor
    · rw [le_div_iff₀ hdpos]
      nlinarith [he, hkey, ht]
    · rw [div_le_one hdpos]
      linarith

theorem ari_bounds (n : ℕ) (f g : Fin n → ℕ) : -1 ≤ ari n f g ∧ ari n f g ≤ 1 := by
  have h := ariVal_bounds ((pairFinset n).card : ℚ) ((togetherPairs n f).card : ℚ)
    ((togetherPairs n g).card : ℚ) ((bothPairs n f g).card : ℚ)
    (Nat.cast_nonneg _) (Nat.cast_nonneg _) (Nat.cast_nonneg _) (Nat.cast_nonneg _)
    (by exact_mod_cast Finset.card_le_card (bothPairs_subset_left n f g))
    (by exact_mod_cast Finset.card_le_card (bothPairs_subset_right n f g))
    (by exact_mod_cast Finset.card_le_card (togetherPairs_subset n f))
    (by exact_mod_cast Finset.card_le_card (togetherPairs_subset n g))
    (by exact_mod_cast together_card_bound n f g)
  simpa only [ari] using h

theorem ari_const (n : ℕ) (f g : Fin n → ℕ) (hf : ∀ i j, f i = f j)
    (hg : ∀ i j, g i = g j) : ari n f g = 1 := by
  have hP : togetherPairs n f = pairFinset n :=
    Finset.filter_true_of_mem fun p _ => hf p.1 p.2
  have hQ : togetherPairs n g = pairFinset n :=
    Finset.filter_true_of_mem fun p _ => hg p.1 p.2
  have hA : bothPairs n f g = pairFinset n :=
    Finset.filter_true_of_mem fun p _ => ⟨hf p.1 p.2, hg p.1 p.2⟩
  simp only [ari, hP, hQ, hA]
  rw [if_pos]
  by_cases ht : ((pairFinset n).card : ℚ) = 0
  · rw [ht]
    norm_num
  · rw [mul_div_assoc, div_self ht, mul_one, add_self_div_two, sub_self]

theorem mem_pairsOf {α : Type} {pr : α × α} {l : List α} (h : pr ∈ pairsOf l) :
    pr.1 ∈ l ∧ pr.2 ∈ l := by
  induction l with
  | nil => cases h
  | cons x r ih =>
    rw [pairsOf] at h
    rcases List.mem_append.mp h with h | h
    · obtain ⟨y, hy, heq⟩ := List.mem_map.mp h
      cases heq
      exact ⟨List.mem_cons_self x r, List.mem_cons_of_mem _ hy⟩
    · have hin := ih h
      exact ⟨List.mem_cons_of_mem _ hin.1, List.mem_cons_of_mem _ hin.2⟩

theorem sum_bounds_of_mem (l : List ℚ) (h : ∀ x ∈ l, -1 ≤ x ∧ x ≤ 1) :
    -(l.length : ℚ) ≤ l.sum ∧ l.sum ≤ (l.length : ℚ) := by
  induction l with
  | nil => simp
  | cons x r ih =>
    have hx := h x (List.mem_cons_self x r)
    have hr := ih fun y hy => h y (List.mem_cons_of_mem x hy)
    simp only [List.sum_cons, List.length_cons]
    push_cast
    constructor <;> linarith [hx.1, hx.2, hr.1, hr.2]

theorem sum_map_one {α : Type} (l : List α) :
    (l.map fun _ => (1 : ℚ)).sum = (l.length : ℚ) := by
  induction l with
  | nil => simp
  | cons x r ih => simp [ih, add_comm]

/-- **C7.** The stability score reported by the pipeline — the average
pairwise adjusted agreement index over the clustering runs — always lies in
`[-1, 1]`, and when the feature set has zero variance across heads (all
heads share one feature vector, so every run assigns every head the same
cluster) the score is exactly `1`. -/
theorem stabilityScore_bounds_and_zero_variance (n : ℕ)
    (centsList : List (List FeatureVec)) (feat : Fin n → FeatureVec) :
    (-1 ≤ stabilityScore n (pipelineRuns n centsList feat) ∧
      stabilityScore n (pipelineRuns n centsList feat) ≤ 1) ∧
    ((∀ i j : Fin n, feat i = feat j) →
      stabilityScore n (pipelineRuns n centsList feat) = 1) := by
  constructor
  · simp only [stabilityScore]
    by_cases hps : pairsOf (pipelineRuns n centsList feat) = []
    · rw [if_pos hps]
      norm_num
    · rw [if_neg hps]
      have hlen : (0 : ℚ) < ((pairsOf (pipelineRuns n centsList feat)).length : ℚ) := by
        exact_mod_cast List.length_pos.mpr hps
      have hb := sum_bounds_of_mem
        ((pairsOf (pipelineRuns n centsList feat)).map fun pr => ari n pr.1 pr.2)
        (fun x hx => by
          obtain ⟨pr, _, rfl⟩ := List.mem_map.mp hx
          exact ari_bounds n pr.1 pr.2)
      rw [List.length_map] at hb
      constructor
      · rw [le_div_iff₀ hlen]
        linarith [hb.1]
      · rw [div_le_one hlen]
        exact hb.2
  · intro hconst
    have hruns : ∀ r ∈ pipelineRuns n centsList feat, ∀ i j, r i = r j := by
      intro r hr i j
      obtain ⟨cents, _, rfl⟩ := List.mem_map.mp hr
      exact congrArg (assignCluster cents) (hconst i j)
    simp only [stabilityScore]
    by_cases hps : pairsOf (pipelineRuns n centsList feat) = []
    · rw [if_pos hps]
    · rw [if_neg hps]
      have hmap :
          ((pairsOf (pipelineRuns n centsList feat)).map fun pr => ari n pr.1 pr.2) =
            (pairsOf (pipelineRuns n centsList feat)).map fun _ => (1 : ℚ) :=
        List.map_congr_left fun pr hpr =>
          ari_const n pr.1 pr.2 (hruns pr.1 (mem_pairsOf hpr).1)
            (hruns pr.2 (mem_pairsOf hpr).2)
      rw [hmap, sum_map_one]
      have hlen : ((pairsOf (pipelineRuns n centsList feat)).length : ℚ) ≠ 0 := by
        exact_mod_cast (List.length_pos.mpr hps).ne'
      exact div_self hlen

/-- Witness for C7 on two runs over two heads with one shared feature vector. -/
theorem stabilityScore_bounds_and_zero_variance_witness :
    (-1 ≤ stabilityScore 2 (pipelineRuns 2 [[[0]], [[1]]] fun _ => [0]) ∧
      stabilityScore 2 (pipelineRuns 2 [[[0]], [[1]]] fun _ => [0]) ≤ 1) ∧
    stabilityScore 2 (pipelineRuns 2 [[[0]], [[1]]] fun _ => [0]) = 1 :=
  ⟨(stabilityScore_bounds_and_zero_variance 2 [[[0]], [[1]]] fun _ => [0]).1,
    (stabilityScore_bounds_and_zero_variance 2 [[[0]], [[1]]] fun _ => [0]).2
      fun _ _ => rfl⟩

end LLMWorkflow
